import Mathlib

/-!
# Verification of the kaisei HTML quiz renderer core

A shallow embedding of the scheduling/memory core of the quiz renderer
(key derivation, recall-model bookkeeping, the scheduler's argmin pick,
the session state machine, and the review applicator), together with
proofs about the embedded definitions.

Conventions used throughout:
* JavaScript strings are Lean `String`s; `split('/')` is `String.splitOn "/"`,
  `join(sep)` is `String.intercalate sep`, template concatenation is `++`.
* Timestamps: an ISO-8601 string is kept abstract as a `String`; its
  `Date.valueOf()` epoch-millisecond reading is a rational number (`ℚ`).
  Parsing an ISO string is delegated to a `parseDate : String → ℚ` parameter
  since `Date` is a host built-in.
* Floating-point arithmetic on finite values is modelled over `ℚ`; the single
  use of `Infinity` (the argmin seed) is modelled by `Option ℚ` with `none`
  standing for `+Infinity`.
* The external `ebisu` library's `updateRecall` and `predictRecall` are kept
  as function parameters: the core only pipes values into them.
* A PouchDB document is modelled by the fields the code reads and writes
  (`ebisu`, `lastSeen`, `version`); a deleted/absent document is `none`.
-/

namespace Kaisei

/-- A `<ruby>` element: base text plus an optional reading. -/
structure Ruby where
  ruby : String
  rt : Option String
deriving DecidableEq

/-- `Furigana = string | Ruby`. -/
inductive Furigana where
  | text (s : String)
  | ruby (r : Ruby)
deriving DecidableEq

/-- `VocabFact`: surface forms and a gloss. -/
structure VocabFact where
  kanjiKana : List String
  definition : String
deriving DecidableEq

/-- `ConjugatedFact`: expected surface sequence and hints. -/
structure ConjugatedFact where
  expected : List Furigana
  hints : List Furigana
deriving DecidableEq

/-- `ParticleFact`: left context, cloze text, right context. -/
structure ParticleFact where
  left : String
  cloze : String
  right : String
deriving DecidableEq

/-- The three sub-fact variants a sentence may contain. -/
inductive SubFact where
  | vocab (v : VocabFact)
  | particle (p : ParticleFact)
  | conjugated (c : ConjugatedFact)
deriving DecidableEq

/-- `SentenceFact`: annotated text, child facts, translations. -/
structure SentenceFact where
  furigana : List Furigana
  subfacts : List SubFact
  translation : List (String × String)
deriving DecidableEq

/-- `Fact = SentenceFact | ParticleFact | ConjugatedFact | VocabFact`. -/
inductive Fact where
  | vocab (v : VocabFact)
  | particle (p : ParticleFact)
  | conjugated (c : ConjugatedFact)
  | sentence (s : SentenceFact)
deriving DecidableEq

/-- Leading- and trailing-whitespace removal on the character list of a
string: the model of JavaScript `String.prototype.trim`. -/
def trimChars (l : List Char) : List Char :=
  ((l.dropWhile Char.isWhitespace).reverse.dropWhile Char.isWhitespace).reverse

/-- Character-level split: the model of JavaScript
`String.prototype.split` with a single-character separator.  Splitting the
empty string yields `[""]`, and separators at the ends yield empty
segments, exactly as in JavaScript. -/
def splitChars (sep : Char) : List Char → List (List Char)
  | [] => [[]]
  | c :: cs =>
    if c = sep then [] :: splitChars sep cs
    else
      match splitChars sep cs with
      | [] => [[c]]
      | h :: t => (c :: h) :: t

/-- `s.split(sep)` for a one-character separator. -/
def jsSplit (sep : Char) (s : String) : List String :=
  (splitChars sep s.data).map fun l => ⟨l⟩

/-- `furiganaToRuby`: concatenate the base text of each furigana chunk and
trim surrounding whitespace (`v.map(...).join('').trim()`). -/
def furiganaToRuby (v : List Furigana) : String :=
  ⟨trimChars (String.join (v.map fun o => match o with
    | .text s => s
    | .ruby r => r.ruby)).data⟩

/-- Modelled from the spec: `hasKanji` is imported from the external
`curtiz-utils` package, which is not part of this repository.  The spec
describes it as testing whether the text contains at least one ideographic
character; we model an ideographic character as one in the CJK Unified
Ideographs block U+4E00–U+9FFF. -/
def hasKanji (s : String) : Bool :=
  s.data.any fun c => decide (0x4E00 ≤ c.toNat) && decide (c.toNat ≤ 0x9FFF)

/-- The key derived for a particle sub-fact:
`model/<sentence-text>/particle/<left>_<cloze>_<right>`
(`[o.left, o.cloze, o.right].join('_')`). -/
def particleKeyOf (text : String) (p : ParticleFact) : String :=
  "model/" ++ text ++ "/particle/" ++ String.intercalate "_" [p.left, p.cloze, p.right]

/-- Keys derived for one sub-fact of a sentence whose plain text is `text`. -/
def subfactKeys (text : String) : SubFact → List String
  | .conjugated c => ["model/" ++ text ++ "/conjugated/" ++ furiganaToRuby c.expected]
  | .particle p => [particleKeyOf text p]
  | .vocab v =>
    let k := String.intercalate "," v.kanjiKana
    ["model/" ++ k ++ "/meaning"] ++ (if hasKanji k then ["model/" ++ k ++ "/reading"] else [])

/-- A sentence fact with derived keys attached to it and to each sub-fact
(`Keyed<SentenceFact>`). -/
structure KeyedSentenceFact where
  furigana : List Furigana
  subfacts : List (SubFact × List String)
  translation : List (String × String)
  keys : List String
deriving DecidableEq

/-- `addKeys`: derive the identity keys of a sentence and of its sub-facts.
Throws when the rendered sentence text contains the path separator. -/
def addKeys (sentence : SentenceFact) : Except String KeyedSentenceFact :=
  let text := furiganaToRuby sentence.furigana
  if text.data.contains '/' then
    .error "unhandled: text containing separator"
  else
    let keys := ["model/" ++ text ++ "/meaning"] ++
      (if hasKanji text then ["model/" ++ text ++ "/reading"] else [])
    .ok ⟨sentence.furigana, sentence.subfacts.map fun o => (o, subfactKeys text o),
      sentence.translation, keys⟩

/-- Modelled from the spec: `kata2hira` is imported from the external
`curtiz-utils` package, which is not part of this repository.  The spec
describes reading grades as using normalized-string equality where katakana
is folded to hiragana; we model the fold as shifting the katakana block
U+30A1–U+30F6 down by 0x60 onto hiragana. -/
def kata2hira (s : String) : String :=
  ⟨s.data.map fun c =>
    if decide (0x30A1 ≤ c.toNat) && decide (c.toNat ≤ 0x30F6) then
      Char.ofNat (c.toNat - 0x60)
    else c⟩

/-- `replace(/\s/g, '')`: drop every whitespace character. -/
def stripWhitespace (s : String) : String :=
  ⟨s.data.filter fun c => !c.isWhitespace⟩

/-- Particle grading (the particle branch of `FactQuiz`): the submitted input
is katakana-folded, whitespace-stripped, and compared with the cloze text
(`cloze === kata2hira(input).replace(/\s/g, '')`). -/
def gradeParticle (cloze input : String) : Bool :=
  cloze == stripWhitespace (kata2hira input)

/-- An ebisu v1 memory model: the triple `[a, b, halflife-hours]` produced
by the external `ebisu-js` library. -/
structure EbisuModel where
  a : ℚ
  b : ℚ
  t : ℚ
deriving DecidableEq

/-- Modelled from the spec: `ebisu.defaultModel(t, a)` of the external
`ebisu-js` library returns the triple `[a, a, t]` (prior `Beta(a, a)` at
elapsed time `t`). -/
def defaultModel (halflife ab : ℚ) : EbisuModel := ⟨ab, ab, halflife⟩

/-- The fields of a persisted memory document that the code reads and
writes.  A field a document lacks is `none`; PouchDB's bookkeeping fields
(`_id`, `_rev`) never flow into the core and are omitted. -/
structure MemoryDoc where
  ebisu : Option EbisuModel
  lastSeen : Option String
  version : Option String
deriving DecidableEq

/-- The document with none of the memory fields. -/
def emptyDoc : MemoryDoc := ⟨none, none, none⟩

/-- The fresh model written on a learn action: default prior
`defaultModel(0.5, 3)` with `lastSeen` set to the learn time. -/
def initializeModel (dateIso : String) : MemoryDoc :=
  ⟨some (defaultModel 0.5 3), some dateIso, some "1"⟩

/-- `learnUnlearn` as a transformer of the stored state of one key:
the upsert either tombstones the document (`{...old, _deleted: true}`,
collapsing the stored entry to absent) or overwrites the memory fields with
a fresh default model stamped at `dateIso`. -/
def learnUnlearnStep (learn : Bool) (dateIso : String) (stored : Option MemoryDoc) :
    Option MemoryDoc :=
  if learn then
    some { stored.getD emptyDoc with
      ebisu := some (defaultModel 0.5 3), lastSeen := some dateIso, version := some "1" }
  else
    none

/-- A fact with its derived keys (`Keyed<Fact>`); the per-sub-fact keys of
a keyed sentence are irrelevant to the state machine, so only the top-level
key list is carried. -/
structure KeyedFact where
  fact : Fact
  keys : List String
deriving DecidableEq

/-- A keyed sentence fact as resolved for the `parent` slot of a quiz. -/
structure KeyedSentence where
  fact : SentenceFact
  keys : List String
deriving DecidableEq

/-- Payload of the `startQuiz` action. -/
structure StartQuizPayload where
  fact : KeyedFact
  quizKey : String
  parent : Option KeyedSentence
deriving DecidableEq

/-- Payload of the `failQuiz` action. -/
structure FailQuizPayload where
  fact : KeyedFact
  quizKey : String
  parent : Option KeyedSentence
  response : String
deriving DecidableEq

/-- The four quiz actions. -/
inductive QuizAction where
  | startQuizSession
  | startQuiz (p : StartQuizPayload)
  | failQuiz (p : FailQuizPayload)
  | doneQuizSession
deriving DecidableEq

/-- The four session states; `quizzing` and `feedbacking` carry the action
that entered them. -/
inductive QuizState where
  | init
  | picking
  | quizzing (a : StartQuizPayload)
  | feedbacking (a : FailQuizPayload)
deriving DecidableEq

/-- `quizReducer`: the session state machine.  Each branch mirrors one arm
of the source's if-ladder; every pair that falls through every arm throws
`invalid action for state`. -/
def quizReducer (state : QuizState) (action : QuizAction) : Except String QuizState :=
  match state, action with
  | .init, .startQuizSession => .ok .picking
  | .picking, .startQuiz p => .ok (.quizzing p)
  | .quizzing _, .failQuiz p => .ok (.feedbacking p)
  | .quizzing _, .startQuizSession => .ok .picking
  | .quizzing _, .doneQuizSession => .ok .init
  | .feedbacking _, .startQuizSession => .ok .picking
  | .feedbacking _, .doneQuizSession => .ok .init
  | _, _ => .error "invalid action for state"

/-- A complete in-memory recall model for one key: the parsed ebisu triple
and the `Date.valueOf()` epoch-millisecond reading of its `lastSeen`
timestamp.  An entry whose document lacks an ebisu model is represented as
`none` in the memories mapping. -/
structure Memory where
  ebisu : EbisuModel
  lastSeen : ℚ
deriving DecidableEq

/-- `(now - lastSeen) / 3600e3`: elapsed hours between an epoch-millisecond
`lastSeen` and `now`, exactly as both the picking branch and
`reviewSentence` compute it. -/
def elapsedHoursOf (now lastSeenMs : ℚ) : ℚ :=
  (now - lastSeenMs) / 3600000

/-- The value the picking branch's argmin callback returns for one entry:
`predictRecall(model.ebisu, elapsedHours)` when an ebisu model is present,
`Infinity` (modelled as `none`) otherwise.  `predictRecall` itself is the
external ebisu library, passed in as `pred`. -/
def quizCost (pred : EbisuModel → ℚ → ℚ) (now : ℚ) : Option Memory → Option ℚ
  | some m => some (pred m.ebisu (elapsedHoursOf now m.lastSeen))
  | none => none

/-- Strict `<` on costs where `none` stands for `+Infinity`:
`Infinity < x` is false, `q < Infinity` is true for finite `q`. -/
def costLt : Option ℚ → Option ℚ → Bool
  | none, _ => false
  | some _, none => true
  | some a, some b => decide (a < b)

/-- Modelled from the spec: `argmin` is imported from the external
`curtiz-utils` package, which is not part of this repository.  Per the
spec's scheduler contract, an absent model maps to `+Infinity` so it "is
never selected ahead of any known model" and the result is `none` "if no
key has a present model"; accordingly the fold starts from
`(undefined, Infinity)` and updates on strict `<`, so the first strict
minimum wins and `status.min` stays `undefined` when nothing beats the
`Infinity` seed. -/
def argmin (cost : α → Option ℚ) (l : List α) : Option α :=
  (l.foldl (fun acc e => if costLt (cost e) acc.2 then (some e, cost e) else acc)
    ((none : Option α), (none : Option ℚ))).1

/-- The scheduler: over the iteration-ordered entries of the memories
mapping, pick the entry of minimum predicted recall (the picking branch's
`argmin(Object.entries(memories), ...)` followed by `status.min`). -/
def selectNext (pred : EbisuModel → ℚ → ℚ) (now : ℚ)
    (entries : List (String × Option Memory)) : Option (String × Option Memory) :=
  argmin (fun e => quizCost pred now e.2) entries

/-- What the picking branch of the `Quiz` component does after the
scheduler runs: either it renders a message without dispatching anything,
or it dispatches an action through the reducer. -/
inductive PickingOutcome where
  | render (msg : String)
  | dispatched (next : Except String QuizState)

/-- The picking branch of the `Quiz` component: run the scheduler; on
`none` render `Nothing to quiz!` (no dispatch); otherwise look the key up
in the fact graph, resolve the parent sentence by truncating the key to its
first two path segments plus `/meaning`, and dispatch `startQuiz`. -/
def pickingBranch (pred : EbisuModel → ℚ → ℚ) (now : ℚ)
    (facts : List (String × KeyedFact)) (memories : List (String × Option Memory)) :
    PickingOutcome :=
  match selectNext pred now memories with
  | none => .render "Nothing to quiz!"
  | some (toQuizKey, _) =>
    match facts.lookup toQuizKey with
    | none => .render "ERROR: best quiz from Pouchdb not in Redux?"
    | some fact =>
      let parentKey := String.intercalate "/" ((jsSplit '/' toQuizKey).take 2) ++ "/meaning"
      let parent := (facts.lookup parentKey).bind fun kf =>
        match kf.fact with
        | .sentence s => some (KeyedSentence.mk s kf.keys)
        | _ => none
      .dispatched (quizReducer .picking (.startQuiz ⟨fact, toQuizKey, parent⟩))

/-- The actions the picking branch dispatches, paired with the message it
renders (if any): on a `none` scheduler result or a failed fact lookup the
component returns rendered markup and dispatches nothing; otherwise it
dispatches the single `startQuiz` action. -/
def pickingDispatches (pred : EbisuModel → ℚ → ℚ) (now : ℚ)
    (facts : List (String × KeyedFact)) (memories : List (String × Option Memory)) :
    List QuizAction × Option String :=
  match selectNext pred now memories with
  | none => ([], some "Nothing to quiz!")
  | some (toQuizKey, _) =>
    match facts.lookup toQuizKey with
    | none => ([], some "ERROR: best quiz from Pouchdb not in Redux?")
    | some fact =>
      let parentKey := String.intercalate "/" ((jsSplit '/' toQuizKey).take 2) ++ "/meaning"
      let parent := (facts.lookup parentKey).bind fun kf =>
        match kf.fact with
        | .sentence s => some (KeyedSentence.mk s kf.keys)
        | _ => none
      ([.startQuiz ⟨fact, toQuizKey, parent⟩], none)

/-- The `useReducer` dispatch semantics: a sequence of dispatched actions
is folded through `quizReducer` from the current state; dispatching no
action leaves the state unchanged. -/
def runActions (s : QuizState) : List QuizAction → Except String QuizState
  | [] => .ok s
  | a :: rest =>
    match quizReducer s a with
    | .ok s' => runActions s' rest
    | .error e => .error e

/-- The session state after the picking branch runs from the `picking`
state, paired with the message rendered (if any): the dispatched actions
(none on a render) are folded through `quizReducer` by `runActions`. -/
def pickingStep (pred : EbisuModel → ℚ → ℚ) (now : ℚ)
    (facts : List (String × KeyedFact)) (memories : List (String × Option Memory)) :
    Except String QuizState × Option String :=
  (runActions .picking (pickingDispatches pred now facts memories).1,
    (pickingDispatches pred now facts memories).2)

/-- `reviewSentence`'s root: the first two path segments of the quizzed key
(`quizKey.split('/').slice(0, 2).join('/')`). -/
def reviewSuperkey (quizKey : String) : String :=
  String.intercalate "/" ((jsSplit '/' quizKey).take 2)

/-- The `startkey` of the related-keys range scan: `superkey + '/'`. -/
def reviewStartkey (quizKey : String) : String :=
  reviewSuperkey quizKey ++ "/"

/-- The `endkey` of the related-keys range scan:
`superkey + '/￰'` (the character U+FFF0). -/
def reviewEndkey (quizKey : String) : String :=
  reviewSuperkey quizKey ++ "/￰"

/-- One immutable review event record (`QuizEvent`); `response` models the
`extra` field, which carries a response only when one was given and
non-empty. -/
structure QuizEvent where
  version : String
  modelKey : String
  active : Bool
  date : String
  result : Bool
  newEbisu : EbisuModel
  oldEbisu : EbisuModel
  lastSeen : String
  response : Option String
deriving DecidableEq

/-- `const extra = response ? {response} : {}`: an empty or missing response
leaves the extra record empty (JavaScript truthiness on strings). -/
def extraOf (response : Option String) : Option String :=
  match response with
  | some r => if r.isEmpty then none else some r
  | none => none

/-- A complete `Memory` value as the `newModel` local of `reviewSentence`
builds it. -/
structure MemoryFields where
  version : String
  ebisu : EbisuModel
  lastSeen : String
deriving DecidableEq

/-- The upsert callback `reviewSentence` applies to one related key `key`,
returning the merged document together with the event recorded for that key
(`events[key]`, `none` when no event is recorded).  When the old document
has a truthy ebisu model and `lastSeen` (a missing or empty string is
falsy), the active key gets a Bayesian `updateRecall` at the unclamped
elapsed hours and every other key gets a passive refresh; otherwise the
document is returned unchanged and no event is recorded.  `updateRecall`
is the external ebisu library and `parseDate` the host's ISO-8601 parser. -/
def reviewMerge (updateRecall : EbisuModel → Bool → ℚ → EbisuModel)
    (parseDate : String → ℚ) (quizKey : String) (result : Bool)
    (response : Option String) (nowMs : ℚ) (stringyDate : String)
    (key : String) (old : MemoryDoc) : MemoryDoc × Option QuizEvent :=
  match old.ebisu, old.lastSeen with
  | some ebisuModel, some lastSeen =>
    if lastSeen.isEmpty then (old, none)
    else
      let active := key == quizKey
      let newModel : MemoryFields :=
        if active then
          let elapsedHours := elapsedHoursOf nowMs (parseDate lastSeen)
          let newEbisu := updateRecall ebisuModel result elapsedHours
          ⟨"1", newEbisu, stringyDate⟩
        else
          ⟨"1", ebisuModel, stringyDate⟩
      let ev : QuizEvent :=
        ⟨"1", key, active, stringyDate, result, newModel.ebisu, ebisuModel, lastSeen,
          extraOf response⟩
      ({ old with
          ebisu := some newModel.ebisu
          lastSeen := some newModel.lastSeen
          version := some newModel.version }, some ev)
  | _, _ => (old, none)

/-- Least-significant-first decimal digits of `n`, computed with explicit
fuel so that the recursion is structural. -/
def natDigitsRev (fuel n : ℕ) : List Char :=
  match fuel with
  | 0 => []
  | fuel + 1 =>
    if n < 10 then [Nat.digitChar n]
    else Nat.digitChar (n % 10) :: natDigitsRev fuel (n / 10)

/-- Decimal rendering of a natural number, the model of the JavaScript
template interpolation of the loop index in the event key. -/
def natStr (n : ℕ) : String :=
  ⟨(natDigitsRev (n + 1) n).reverse⟩

/-- The key of the `i`-th event log document:
`quiz/<stringyDate>-<rand>-<i>`. -/
def eventKeyOf (stringyDate rand : String) (i : ℕ) : String :=
  "quiz/" ++ stringyDate ++ "-" ++ rand ++ "-" ++ natStr i

/-- The event-log writes, one per related key in order: the `i`-th write
targets `eventKeyOf stringyDate rand i` and carries `events[modelKey]` —
`none` (an empty payload merged over a fresh document) when no event was
recorded for that key. -/
def eventWritesAux (stringyDate rand : String) (ev : String → Option QuizEvent) :
    ℕ → List String → List (String × Option QuizEvent)
  | _, [] => []
  | i, k :: ks => (eventKeyOf stringyDate rand i, ev k) :: eventWritesAux stringyDate rand ev (i + 1) ks

/-- The full list of event-log writes of one `reviewSentence` call:
`relatedKeys.map((modelKey, i) => upsert(quiz/..-..-i, {...events[modelKey]}))`,
where `docOf` gives the stored document each model-update upsert saw. -/
def reviewEventWrites (updateRecall : EbisuModel → Bool → ℚ → EbisuModel)
    (parseDate : String → ℚ) (quizKey : String) (result : Bool)
    (response : Option String) (nowMs : ℚ) (stringyDate rand : String)
    (docOf : String → MemoryDoc) (relatedKeys : List String) :
    List (String × Option QuizEvent) :=
  eventWritesAux stringyDate rand
    (fun k => (reviewMerge updateRecall parseDate quizKey result response nowMs stringyDate
      k (docOf k)).2) 0 relatedKeys

/-! ## Correctness of the argmin fold -/

lemma costLt_trans {x y z : Option ℚ} (h1 : costLt x y = true) (h2 : costLt y z = true) :
    costLt x z = true := by
  cases x with
  | none => simp [costLt] at h1
  | some a =>
    cases y with
    | none => simp [costLt] at h2
    | some b =>
      cases z with
      | none => rfl
      | some c =>
        simp only [costLt, decide_eq_true_eq] at h1 h2 ⊢
        linarith

lemma costLt_irrefl (x : Option ℚ) : costLt x x = false := by
  cases x <;> simp [costLt]

lemma costLt_some_of_true {x y : Option ℚ} (h : costLt x y = true) : ∃ q, x = some q := by
  cases x
  · simp [costLt] at h
  · exact ⟨_, rfl⟩

lemma argmin_foldl_inv {α : Type} (cost : α → Option ℚ) :
    ∀ (l : List α) (acc : Option α × Option ℚ) (seen : List α),
      (acc.1 = none → acc.2 = none ∧ ∀ e ∈ seen, cost e = none) →
      (∀ x, acc.1 = some x → x ∈ seen ∧ acc.2 = cost x ∧ (∃ q, cost x = some q) ∧
        ∀ e ∈ seen, costLt (cost e) acc.2 = false) →
      ((l.foldl (fun acc e => if costLt (cost e) acc.2 then (some e, cost e) else acc) acc).1
          = none →
        (l.foldl (fun acc e => if costLt (cost e) acc.2 then (some e, cost e) else acc) acc).2
          = none ∧ ∀ e ∈ seen ++ l, cost e = none) ∧
      (∀ x,
        (l.foldl (fun acc e => if costLt (cost e) acc.2 then (some e, cost e) else acc) acc).1
          = some x →
        x ∈ seen ++ l ∧
        (l.foldl (fun acc e => if costLt (cost e) acc.2 then (some e, cost e) else acc) acc).2
          = cost x ∧ (∃ q, cost x = some q) ∧
        ∀ e ∈ seen ++ l,
          costLt (cost e)
            (l.foldl (fun acc e => if costLt (cost e) acc.2 then (some e, cost e) else acc) acc).2
            = false) := by
  intro l
  induction l with
  | nil =>
    intro acc seen hnone hsome
    simpa using ⟨hnone, hsome⟩
  | cons e l ih =>
    intro acc seen hnone hsome
    have hstep : (e :: l).foldl
        (fun acc e => if costLt (cost e) acc.2 then (some e, cost e) else acc) acc
        = l.foldl (fun acc e => if costLt (cost e) acc.2 then (some e, cost e) else acc)
          (if costLt (cost e) acc.2 then (some e, cost e) else acc) := by
      simp [List.foldl]
    rw [hstep]
    have hseen : seen ++ e :: l = (seen ++ [e]) ++ l := by simp
    rw [hseen]
    by_cases hc : costLt (cost e) acc.2 = true
    · rw [if_pos hc]
      refine ih (some e, cost e) (seen ++ [e]) (by intro h; simp at h) ?_
      intro x hx
      simp only [Option.some.injEq] at hx
      subst hx
      refine ⟨by simp, rfl, costLt_some_of_true hc, ?_⟩
      intro e' he'
      rcases List.mem_append.mp he' with h' | h'
      · by_contra hcontra
        rw [Bool.not_eq_false] at hcontra
        have htr : costLt (cost e') acc.2 = true := costLt_trans hcontra hc
        rcases h : acc.1 with _ | x0
        · have := (hnone h).2 e' h'
          rw [this] at htr
          simp [costLt] at htr
        · have := (hsome x0 h).2.2.2 e' h'
          rw [this] at htr
          simp at htr
      · simp only [List.mem_singleton] at h'
        subst h'
        exact costLt_irrefl _
    · rw [if_neg hc]
      rw [Bool.not_eq_true] at hc
      refine ih acc (seen ++ [e]) ?_ ?_
      · intro h
        obtain ⟨h2, hall⟩ := hnone h
        refine ⟨h2, ?_⟩
        intro e' he'
        rcases List.mem_append.mp he' with h' | h'
        · exact hall e' h'
        · simp only [List.mem_singleton] at h'
          subst h'
          rw [h2] at hc
          cases h3 : cost e'
          · rfl
          · rw [h3] at hc
            simp [costLt] at hc
      · intro x hx
        obtain ⟨hmem, heq, hq, hmin⟩ := hsome x hx
        refine ⟨List.mem_append.mpr (Or.inl hmem), heq, hq, ?_⟩
        intro e' he'
        rcases List.mem_append.mp he' with h' | h'
        · exact hmin e' h'
        · simp only [List.mem_singleton] at h'
          subst h'
          exact hc

lemma argmin_spec {α : Type} (cost : α → Option ℚ) (l : List α) :
    (argmin cost l = none → ∀ e ∈ l, cost e = none) ∧
    (∀ x, argmin cost l = some x → x ∈ l ∧ (∃ q, cost x = some q) ∧
      ∀ e ∈ l, costLt (cost e) (cost x) = false) ∧
    ((∀ e ∈ l, cost e = none) → argmin cost l = none) := by
  have hinv := argmin_foldl_inv cost l ((none : Option α), (none : Option ℚ)) []
    (by intro _; exact ⟨rfl, by simp⟩) (by intro x hx; simp at hx)
  simp only [List.nil_append] at hinv
  obtain ⟨hn, hs⟩ := hinv
  refine ⟨?_, ?_, ?_⟩
  · intro h e he
    exact (hn h).2 e he
  · intro x hx
    obtain ⟨hmem, heq, hq, hmin⟩ := hs x hx
    rw [heq] at hmin
    exact ⟨hmem, hq, hmin⟩
  · intro hall
    rcases h : argmin cost l with _ | x
    · rfl
    · obtain ⟨hmem, _, ⟨q, hq⟩, _⟩ := hs x h
      rw [hall x hmem] at hq
      cases hq

lemma selectNext_none_of_absent (pred : EbisuModel → ℚ → ℚ) (now : ℚ)
    (memories : List (String × Option Memory))
    (h : ∀ e ∈ memories, (e : String × Option Memory).2 = none) :
    selectNext pred now memories = none := by
  refine (argmin_spec _ memories).2.2 ?_
  intro e he
  rw [h e he]
  rfl

/-! ## C1: the scheduler picks the present model of minimum predicted recall -/

/-- C1: For every mapping of keys to recall models (its iteration-ordered
entry list) and every time `now`, the scheduler of the picking branch
computes predicted recall only for entries with a present model; when it
returns an entry, that entry is in the mapping, its model is present, and
its predicted recall is minimal among all present entries (so a key with an
absent model is never selected ahead of a key with a present model); it
returns `none` exactly when no entry has a present model, and then the
component renders `Nothing to quiz!`. -/
theorem selectNext_picks_minimum (pred : EbisuModel → ℚ → ℚ) (now : ℚ)
    (entries : List (String × Option Memory)) :
    (∀ k om, selectNext pred now entries = some (k, om) →
      (k, om) ∈ entries ∧ ∃ m, om = some m ∧
        ∀ k' m', (k', some m') ∈ entries →
          pred m.ebisu (elapsedHoursOf now m.lastSeen) ≤
            pred m'.ebisu (elapsedHoursOf now m'.lastSeen)) ∧
    (selectNext pred now entries = none ↔ ∀ k om, (k, om) ∈ entries → om = none) ∧
    (∀ facts, selectNext pred now entries = none →
      pickingBranch pred now facts entries = .render "Nothing to quiz!") := by
  obtain ⟨h1, h2, h3⟩ := argmin_spec (fun e => quizCost pred now e.2) entries
  refine ⟨?_, ⟨?_, ?_⟩, ?_⟩
  · intro k om hsel
    obtain ⟨hmem, ⟨q, hq⟩, hmin⟩ := h2 (k, om) hsel
    cases om with
    | none => simp [quizCost] at hq
    | some m =>
      refine ⟨hmem, m, rfl, ?_⟩
      intro k' m' hmem'
      have hlt := hmin (k', some m') hmem'
      simp only [quizCost, costLt, decide_eq_false_iff_not, not_lt] at hlt
      exact hlt
  · intro hsel k om hmem
    have := h1 hsel (k, om) hmem
    cases om with
    | none => rfl
    | some m => simp [quizCost] at this
  · intro hall
    exact h3 (fun e he => by rw [hall e.1 e.2 (by simpa using he)]; rfl)
  · intro facts hsel
    simp [pickingBranch, hsel]

/-- Witness for C1, the spec's worked example: with `A` unknown and
`B`, `C` predicting recall `0.9` and `0.3`, the scheduler selects `C`,
which indeed is an entry of the mapping with a present model. -/
theorem selectNext_picks_minimum_witness :
    selectNext (fun e _ => if e.a = 1 then 9/10 else 3/10) 0
      [("A", none), ("B", some ⟨⟨1, 1, 1⟩, 0⟩), ("C", some ⟨⟨2, 2, 2⟩, 0⟩)]
      = some ("C", some ⟨⟨2, 2, 2⟩, 0⟩) ∧
    ("C", some (Memory.mk ⟨2, 2, 2⟩ 0)) ∈
      [("A", (none : Option Memory)), ("B", some ⟨⟨1, 1, 1⟩, 0⟩), ("C", some ⟨⟨2, 2, 2⟩, 0⟩)] := by
  have hsel : selectNext (fun e _ => if e.a = 1 then 9/10 else 3/10) 0
      [("A", none), ("B", some ⟨⟨1, 1, 1⟩, 0⟩), ("C", some ⟨⟨2, 2, 2⟩, 0⟩)]
      = some ("C", some ⟨⟨2, 2, 2⟩, 0⟩) := by
    norm_num [selectNext, argmin, quizCost, costLt, elapsedHoursOf, List.foldl]
  exact ⟨hsel,
    ((selectNext_picks_minimum (fun e _ => if e.a = 1 then 9/10 else 3/10) 0
      [("A", none), ("B", some ⟨⟨1, 1, 1⟩, 0⟩), ("C", some ⟨⟨2, 2, 2⟩, 0⟩)]).1
      "C" (some ⟨⟨2, 2, 2⟩, 0⟩) hsel).1⟩

/-! ## C2: the session state machine -/

/-- C2 counterexample: the claim says a scheduler result of `none` in the
picking state yields `init`; at the explicit input of an empty memories
mapping (the scheduler returns `none` there) the picking branch renders
`Nothing to quiz!` and dispatches no action at all, folding the empty
action sequence through `quizReducer` leaves the machine in `picking`,
and `picking` is a different state from `init` — moreover the reducer
itself offers no route from `picking` to `init`: `startQuizSession` and
`doneQuizSession` throw there. -/
theorem quizReducer_schedulerNone_not_init :
    pickingDispatches (fun _ _ => 0) 0 [] [] = ([], some "Nothing to quiz!") ∧
    runActions .picking [] = .ok .picking ∧
    pickingStep (fun _ _ => 0) 0 [] [] = (.ok .picking, some "Nothing to quiz!") ∧
    QuizState.picking ≠ QuizState.init ∧
    quizReducer .picking .startQuizSession = .error "invalid action for state" ∧
    quizReducer .picking .doneQuizSession = .error "invalid action for state" := by
  refine ⟨rfl, rfl, rfl, ?_, rfl, rfl⟩
  intro h
  cases h

/-- C2 (amended): `quizReducer` realises exactly the listed transition
table — `startQuizSession` from `init`, `quizzing` or `feedbacking` yields
`picking`; `startQuiz` from `picking` yields `quizzing`; `failQuiz` from
`quizzing` yields `feedbacking`; `doneQuizSession` from `quizzing` or
`feedbacking` yields `init`; every other (state, action) pair throws
`invalid action for state` — while a scheduler result of `none` in the
picking state leaves the machine in `picking` and renders
`Nothing to quiz!` (it does not yield `init`; indeed no action whatsoever
takes the reducer from `picking` to `init`). -/
theorem quizReducer_transition_table :
    (quizReducer .init .startQuizSession = .ok .picking) ∧
    (∀ p, quizReducer .picking (.startQuiz p) = .ok (.quizzing p)) ∧
    (∀ a p, quizReducer (.quizzing a) (.failQuiz p) = .ok (.feedbacking p)) ∧
    (∀ a, quizReducer (.quizzing a) .startQuizSession = .ok .picking) ∧
    (∀ a, quizReducer (.quizzing a) .doneQuizSession = .ok .init) ∧
    (∀ a, quizReducer (.feedbacking a) .startQuizSession = .ok .picking) ∧
    (∀ a, quizReducer (.feedbacking a) .doneQuizSession = .ok .init) ∧
    (∀ p, quizReducer .init (.startQuiz p) = .error "invalid action for state") ∧
    (∀ p, quizReducer .init (.failQuiz p) = .error "invalid action for state") ∧
    (quizReducer .init .doneQuizSession = .error "invalid action for state") ∧
    (quizReducer .picking .startQuizSession = .error "invalid action for state") ∧
    (∀ p, quizReducer .picking (.failQuiz p) = .error "invalid action for state") ∧
    (quizReducer .picking .doneQuizSession = .error "invalid action for state") ∧
    (∀ a p, quizReducer (.quizzing a) (.startQuiz p) = .error "invalid action for state") ∧
    (∀ a p, quizReducer (.feedbacking a) (.startQuiz p) = .error "invalid action for state") ∧
    (∀ a p, quizReducer (.feedbacking a) (.failQuiz p) = .error "invalid action for state") ∧
    (∀ pred now facts memories,
      (∀ e ∈ memories, (e : String × Option Memory).2 = none) →
      pickingDispatches pred now facts memories = ([], some "Nothing to quiz!") ∧
      pickingStep pred now facts memories = (.ok .picking, some "Nothing to quiz!")) ∧
    (∀ a, quizReducer .picking a ≠ .ok .init) := by
  refine ⟨rfl, fun _ => rfl, fun _ _ => rfl, fun _ => rfl, fun _ => rfl, fun _ => rfl,
    fun _ => rfl, fun _ => rfl, fun _ => rfl, rfl, rfl, fun _ => rfl, rfl,
    fun _ _ => rfl, fun _ _ => rfl, fun _ _ => rfl, ?_, ?_⟩
  · intro pred now facts memories h
    have hsel := selectNext_none_of_absent pred now memories h
    constructor
    · simp [pickingDispatches, hsel]
    · simp [pickingStep, pickingDispatches, hsel, runActions]
  · intro a
    cases a <;> simp [quizReducer]

/-- Witness for C2's amended theorem: at a concrete one-entry mapping whose
only model is absent, the picking branch dispatches nothing, rendering
`Nothing to quiz!`, and the machine stays in `picking`. -/
theorem quizReducer_transition_table_witness :
    pickingDispatches (fun _ _ => (0 : ℚ)) 0 [] [("A", none)]
      = ([], some "Nothing to quiz!") ∧
    pickingStep (fun _ _ => (0 : ℚ)) 0 [] [("A", none)]
      = (.ok .picking, some "Nothing to quiz!") :=
  quizReducer_transition_table.2.2.2.2.2.2.2.2.2.2.2.2.2.2.2.2.1
    (fun _ _ => (0 : ℚ)) 0 [] [("A", none)] (by intro e he; simp at he; simp [he])

/-! ## C3: elapsed time is not clamped -/

/-- C3 counterexample: with `now = 0` and a stored `lastSeen` one hour in
the future (epoch-milliseconds `3600000`, clock skew), the elapsed-hours
value is `-1`, not the `0` the claim says the computation uses; and the
active-branch update feeds that `-1` straight into `updateRecall` (made
visible by instantiating `updateRecall` with a function recording its
elapsed-time argument). -/
theorem elapsedHours_clamp_counterexample :
    elapsedHoursOf 0 3600000 = -1 ∧
    (reviewMerge (fun _ _ h => ⟨h, h, h⟩) (fun _ => 3600000) "model/A/reading" true none 0 "D"
      "model/A/reading" ⟨some ⟨1, 1, 1⟩, some "L", some "1"⟩).1.ebisu = some ⟨-1, -1, -1⟩ ∧
    elapsedHoursOf 0 3600000 ≠ 0 := by
  refine ⟨by norm_num [elapsedHoursOf], ?_, by norm_num [elapsedHoursOf]⟩
  have hL : ("L" : String).isEmpty = false := rfl
  norm_num [reviewMerge, elapsedHoursOf, hL]

/-- C3 (amended): neither call site clamps the elapsed time: both the
active branch of the review upsert and the picking branch's cost function
use the raw `(now - lastSeen) / 3600e3`, so when the stored `lastSeen` is
later than `now` (clock skew) a strictly negative elapsed-hours value — not
zero — is fed to `updateRecall` and to `predictRecall`. -/
theorem elapsedHours_unclamped
    (updateRecall : EbisuModel → Bool → ℚ → EbisuModel) (parseDate : String → ℚ)
    (pred : EbisuModel → ℚ → ℚ) (quizKey : String) (result : Bool)
    (response : Option String) (now : ℚ) (stringyDate : String)
    (old : MemoryDoc) (e : EbisuModel) (ls : String) (m : Memory)
    (h1 : old.ebisu = some e) (h2 : old.lastSeen = some ls) (h3 : ls.isEmpty = false)
    (h4 : now < parseDate ls) (h5 : now < m.lastSeen) :
    (reviewMerge updateRecall parseDate quizKey result response now stringyDate quizKey old).1.ebisu
      = some (updateRecall e result (elapsedHoursOf now (parseDate ls))) ∧
    elapsedHoursOf now (parseDate ls) < 0 ∧
    quizCost pred now (some m) = some (pred m.ebisu (elapsedHoursOf now m.lastSeen)) ∧
    elapsedHoursOf now m.lastSeen < 0 := by
  refine ⟨?_, ?_, rfl, ?_⟩
  · cases old with
    | mk eb lsn ver =>
      simp only [MemoryDoc.ebisu] at h1
      simp only [MemoryDoc.lastSeen] at h2
      subst h1
      subst h2
      simp [reviewMerge, h3]
  · exact div_neg_of_neg_of_pos (by linarith) (by norm_num)
  · exact div_neg_of_neg_of_pos (by linarith) (by norm_num)

/-- Witness for C3's amended theorem at the counterexample's concrete
input: the future-dated `lastSeen` yields a negative elapsed time at both
call sites, and the recorded `updateRecall` argument is that negative
value. -/
theorem elapsedHours_unclamped_witness :
    (reviewMerge (fun _ _ h => ⟨h, h, h⟩) (fun _ => 3600000) "model/A/reading" true none 0 "D"
      "model/A/reading" ⟨some ⟨1, 1, 1⟩, some "L", some "1"⟩).1.ebisu
      = some ⟨elapsedHoursOf 0 3600000, elapsedHoursOf 0 3600000, elapsedHoursOf 0 3600000⟩ ∧
    elapsedHoursOf 0 3600000 < 0 ∧
    quizCost (fun _ h => h) 0 (some ⟨⟨1, 1, 1⟩, 7200000⟩)
      = some (elapsedHoursOf 0 7200000) ∧
    elapsedHoursOf 0 7200000 < 0 :=
  elapsedHours_unclamped (fun _ _ h => ⟨h, h, h⟩) (fun _ => 3600000) (fun _ h => h)
    "model/A/reading" true none 0 "D" ⟨some ⟨1, 1, 1⟩, some "L", some "1"⟩ ⟨1, 1, 1⟩ "L"
    ⟨⟨1, 1, 1⟩, 7200000⟩ rfl rfl rfl (by norm_num) (by norm_num)

/-! ## C4: passive refresh only touches the last-seen timestamp -/

/-- C4: For every review and every related key other than the quizzed key
whose stored document has a present model, the review upsert only moves the
document's `lastSeen` to the review time: the resulting document equals the
old one with `lastSeen` replaced, and in particular its ebisu strength
triple is exactly the old one. -/
theorem passive_refresh_only_lastSeen
    (updateRecall : EbisuModel → Bool → ℚ → EbisuModel) (parseDate : String → ℚ)
    (quizKey : String) (result : Bool) (response : Option String) (nowMs : ℚ)
    (stringyDate : String) (key : String) (old : MemoryDoc) (e : EbisuModel) (ls : String)
    (hk : key ≠ quizKey) (h1 : old.ebisu = some e) (h2 : old.lastSeen = some ls)
    (h3 : ls.isEmpty = false) (hv : old.version = some "1") :
    (reviewMerge updateRecall parseDate quizKey result response nowMs stringyDate key old).1
      = { old with lastSeen := some stringyDate } ∧
    (reviewMerge updateRecall parseDate quizKey result response nowMs stringyDate key old).1.ebisu
      = old.ebisu := by
  have hbeq : (key == quizKey) = false := beq_eq_false_iff_ne.mpr hk
  cases old with
  | mk eb lsn ver =>
    simp only [MemoryDoc.ebisu] at h1
    simp only [MemoryDoc.lastSeen] at h2
    simp only [MemoryDoc.version] at hv
    subst h1
    subst h2
    subst hv
    constructor
    · simp [reviewMerge, h3, hbeq]
    · simp [reviewMerge, h3, hbeq]

/-- Witness for C4: a concrete passive refresh of a sibling key leaves the
strength triple `⟨5, 6, 7⟩` untouched and moves `lastSeen` to the review
time. -/
theorem passive_refresh_only_lastSeen_witness :
    (reviewMerge (fun _ _ h => ⟨h, h, h⟩) (fun _ => 0) "model/A/reading" true none 0 "D"
      "model/A/meaning" ⟨some ⟨5, 6, 7⟩, some "L", some "1"⟩).1
      = ⟨some ⟨5, 6, 7⟩, some "D", some "1"⟩ ∧
    (reviewMerge (fun _ _ h => ⟨h, h, h⟩) (fun _ => 0) "model/A/reading" true none 0 "D"
      "model/A/meaning" ⟨some ⟨5, 6, 7⟩, some "L", some "1"⟩).1.ebisu = some ⟨5, 6, 7⟩ :=
  passive_refresh_only_lastSeen (fun _ _ h => ⟨h, h, h⟩) (fun _ => 0) "model/A/reading" true
    none 0 "D" "model/A/meaning" ⟨some ⟨5, 6, 7⟩, some "L", some "1"⟩ ⟨5, 6, 7⟩ "L"
    (by decide) rfl rfl rfl rfl

/-! ## Lexicographic order on strings (for the range-scan bounds) -/

lemma lex_append_iff (p : List Char) {x y : List Char} :
    List.Lex (· < ·) (p ++ x) (p ++ y) ↔ List.Lex (· < ·) x y := by
  induction p with
  | nil => exact Iff.rfl
  | cons c p ih =>
    simp only [List.cons_append]
    constructor
    · intro h
      cases h with
      | cons h => exact ih.mp h
      | rel h => exact absurd h (lt_irrefl c)
    · intro h
      exact List.Lex.cons (ih.mpr h)

lemma lex_prefix_of_between :
    ∀ (p t s : List Char), ¬ List.Lex (· < ·) s p → List.Lex (· < ·) s (p ++ t) →
      ∃ x, s = p ++ x ∧ List.Lex (· < ·) x t := by
  intro p
  induction p with
  | nil =>
    intro t s _ h2
    exact ⟨s, rfl, h2⟩
  | cons c p ih =>
    intro t s h1 h2
    cases s with
    | nil => exact absurd List.Lex.nil h1
    | cons d s' =>
      rw [List.cons_append] at h2
      cases h2 with
      | rel h => exact absurd (List.Lex.rel h) h1
      | cons hrest =>
        have h1' : ¬ List.Lex (· < ·) s' p := fun hc => h1 (List.Lex.cons hc)
        obtain ⟨x, hx, hxlt⟩ := ih t s' h1' hrest
        exact ⟨x, by rw [List.cons_append, hx], hxlt⟩

/-! ## C5: the related-keys range scan -/

/-- C5 counterexample: the scan's upper bound appends the character
U+FFF0, not U+FFFF as the claim states: at the explicit key
`model/AAA/reading` the computed `endkey` is `model/AAA/` followed by
U+FFF0, which is a different string from `model/AAA/` followed by U+FFFF. -/
theorem rangeScan_endkey_not_uFFFF :
    reviewStartkey "model/AAA/reading" = "model/AAA/" ∧
    reviewEndkey "model/AAA/reading" = "model/AAA/￰" ∧
    reviewEndkey "model/AAA/reading" ≠ "model/AAA/￿" := by
  refine ⟨rfl, rfl, ?_⟩
  decide

/-- C5 (amended): `reviewSentence` scans from `<root>/` to `<root>/`
followed by U+FFF0 (not U+FFFF), where `root` is the first two path
segments of the quizzed key; under the store's codepoint-lexicographic
collation, a string lies between those bounds (lower bound inclusive,
upper bound strict) exactly when it is `<root>/` followed by a suffix
below the one-character string U+FFF0 — in particular every such string is
nested under the root, so the scan does not over-match. -/
theorem rangeScan_bounds (quizKey s : String) :
    (reviewStartkey quizKey ≤ s ∧ s < reviewEndkey quizKey) ↔
      ∃ x : String, s = reviewStartkey quizKey ++ x ∧ x < "￰" := by
  have hd : (reviewEndkey quizKey).toList = (reviewStartkey quizKey).toList ++ ['￰'] := by
    simp [reviewEndkey, reviewStartkey, String.toList, String.data_append]
  constructor
  · rintro ⟨hle, hlt⟩
    rw [String.le_iff_toList_le] at hle
    rw [String.lt_iff_toList_lt, hd] at hlt
    obtain ⟨x, hx, hxlt⟩ := lex_prefix_of_between (reviewStartkey quizKey).toList ['￰']
      s.toList (not_lt.mpr hle) hlt
    refine ⟨⟨x⟩, ?_, ?_⟩
    · apply String.ext
      rw [String.data_append]
      exact hx
    · rw [String.lt_iff_toList_lt]
      exact hxlt
  · rintro ⟨x, rfl, hx⟩
    rw [String.lt_iff_toList_lt] at hx
    constructor
    · rw [String.le_iff_toList_le]
      refine not_lt.mp ?_
      intro h
      have h' : List.Lex (· < ·)
          ((reviewStartkey quizKey).toList ++ x.toList)
          ((reviewStartkey quizKey).toList ++ []) := by
        have h'' : List.Lex (· < ·) (reviewStartkey quizKey ++ x).toList
            (reviewStartkey quizKey).toList := h
        simpa [String.toList, String.data_append] using h''
      exact List.Lex.not_nil_right _ _ ((lex_append_iff _).mp h')
    · rw [String.lt_iff_toList_lt, hd]
      have hx' : List.Lex (· < ·) x.toList ['￰'] := hx
      show List.Lex (· < ·) (reviewStartkey quizKey ++ x).toList
        ((reviewStartkey quizKey).toList ++ ['￰'])
      have he : (reviewStartkey quizKey ++ x).toList
          = (reviewStartkey quizKey).toList ++ x.toList := by
        simp [String.toList, String.data_append]
      rw [he]
      exact (lex_append_iff _).mpr hx'

/-- Witness for C5's amended theorem: the concrete key `model/AAA/xyz`
lies inside the bounds computed for the quizzed key `model/AAA/reading`. -/
theorem rangeScan_bounds_witness :
    reviewStartkey "model/AAA/reading" ≤ "model/AAA/xyz" ∧
    ("model/AAA/xyz" : String) < reviewEndkey "model/AAA/reading" :=
  (rangeScan_bounds "model/AAA/reading" "model/AAA/xyz").mpr
    ⟨"xyz", by decide, String.lt_iff_toList_lt.mpr (by decide)⟩

/-! ## C6: sentence key derivation -/

/-- C6: For every sentence fact whose rendered plain text is free of the
path separator, `addKeys` emits the meaning key `model/<text>/meaning`
first and the reading key `model/<text>/reading` exactly when `<text>`
contains an ideographic character; in particular without ideographic
characters only the meaning key is emitted. -/
theorem addKeys_sentence_keys (s : SentenceFact)
    (h : (furiganaToRuby s.furigana).data.contains '/' = false) :
    (addKeys s).map KeyedSentenceFact.keys
      = .ok (("model/" ++ furiganaToRuby s.furigana ++ "/meaning") ::
        (if hasKanji (furiganaToRuby s.furigana) then
          ["model/" ++ furiganaToRuby s.furigana ++ "/reading"] else [])) ∧
    (hasKanji (furiganaToRuby s.furigana) = false →
      (addKeys s).map KeyedSentenceFact.keys
        = .ok ["model/" ++ furiganaToRuby s.furigana ++ "/meaning"]) := by
  have h' : '/' ∉ (furiganaToRuby s.furigana).data := by simpa using h
  constructor
  · simp [addKeys, h', Except.map]
  · intro hk
    simp [addKeys, h', hk, Except.map]

/-- Witness for C6 at the spec's examples: `猫が好き` (which contains
ideographic characters) yields both keys, `I like cats` only the meaning
key. -/
theorem addKeys_sentence_keys_witness :
    (addKeys ⟨[.text "猫が好き"], [], []⟩).map KeyedSentenceFact.keys
      = .ok ["model/猫が好き/meaning", "model/猫が好き/reading"] ∧
    (addKeys ⟨[.text "I like cats"], [], []⟩).map KeyedSentenceFact.keys
      = .ok ["model/I like cats/meaning"] := by
  constructor
  · have h := (addKeys_sentence_keys ⟨[.text "猫が好き"], [], []⟩ (by rfl)).1
    rw [h]
    rfl
  · exact (addKeys_sentence_keys ⟨[.text "I like cats"], [], []⟩ (by rfl)).2 (by rfl)

/-! ## C7: distinctness of derived particle keys -/

/-- C7 counterexample: two distinct particle facts under the same sentence
can collide, because the `_`-join of left/cloze/right is ambiguous when a
field itself contains `_`: `{left: a_b, cloze: c, right: ""}` and
`{left: a, cloze: b_c, right: ""}` both derive the key
`model/私は学生です/particle/a_b_c_`. -/
theorem particleKey_collision :
    particleKeyOf "私は学生です" ⟨"a_b", "c", ""⟩
      = particleKeyOf "私は学生です" ⟨"a", "b_c", ""⟩ ∧
    ParticleFact.mk "a_b" "c" "" ≠ ParticleFact.mk "a" "b_c" "" := by
  constructor
  · rfl
  · decide

lemma append_sep_inj :
    ∀ (a b x y : List Char), '_' ∉ a → '_' ∉ b → a ++ '_' :: x = b ++ '_' :: y →
      a = b ∧ x = y := by
  intro a
  induction a with
  | nil =>
    intro b x y _ hb h
    cases b with
    | nil => simpa using h
    | cons c t =>
      simp only [List.nil_append, List.cons_append, List.cons.injEq] at h
      refine absurd ?_ hb
      rw [← h.1]
      exact List.mem_cons_self _ _
  | cons c t ih =>
    intro b x y ha hb h
    cases b with
    | nil =>
      simp only [List.cons_append, List.nil_append, List.cons.injEq] at h
      refine absurd ?_ ha
      rw [h.1]
      exact List.mem_cons_self _ _
    | cons d u =>
      simp only [List.cons_append, List.cons.injEq] at h
      obtain ⟨hcd, hrest⟩ := h
      subst hcd
      have ha' : '_' ∉ t := fun hm => ha (List.mem_cons_of_mem _ hm)
      have hb' : '_' ∉ u := fun hm => hb (List.mem_cons_of_mem _ hm)
      obtain ⟨h1, h2⟩ := ih u x y ha' hb' hrest
      exact ⟨by rw [h1], h2⟩

/-- C7 (amended): key derivation is a pure function, so re-deriving from
identical content yields identical keys; and two particle facts under the
same sentence whose `left` and `cloze` fields are free of the join
character `_` derive the same key only if they are equal (the `_`-join is
ambiguous for fields containing `_`, as the counterexample shows). -/
theorem particleKey_injective_no_underscore (text : String) (p₁ p₂ : ParticleFact)
    (h1 : '_' ∉ p₁.left.data) (h2 : '_' ∉ p₁.cloze.data)
    (h3 : '_' ∉ p₂.left.data) (h4 : '_' ∉ p₂.cloze.data)
    (heq : particleKeyOf text p₁ = particleKeyOf text p₂) :
    p₁ = p₂ ∧ ∀ s : SentenceFact, addKeys s = addKeys s := by
  refine ⟨?_, fun _ => rfl⟩
  cases p₁ with
  | mk l₁ c₁ r₁ =>
    cases p₂ with
    | mk l₂ c₂ r₂ =>
      simp only [ParticleFact.left, ParticleFact.cloze] at h1 h2 h3 h4
      have hdata := congrArg String.data heq
      simp only [particleKeyOf, String.intercalate, String.intercalate.go,
        String.data_append, List.append_assoc, List.singleton_append] at hdata
      have hdata' := List.append_cancel_left (List.append_cancel_left
        (List.append_cancel_left hdata))
      obtain ⟨hl, hrest⟩ := append_sep_inj _ _ _ _ h1 h3 hdata'
      obtain ⟨hc, hr⟩ := append_sep_inj _ _ _ _ h2 h4 hrest
      have hl' : l₁ = l₂ := String.ext hl
      have hc' : c₁ = c₂ := String.ext hc
      have hr' : r₁ = r₂ := String.ext hr
      rw [hl', hc', hr']

/-- Witness for C7's amended theorem at a concrete underscore-free
particle fact: equal keys force equal facts, and re-derivation of the
sentence's keys is identical. -/
theorem particleKey_injective_no_underscore_witness :
    ParticleFact.mk "私" "は" "学生" = ParticleFact.mk "私" "は" "学生" ∧
    addKeys ⟨[.text "私は学生です"], [.particle ⟨"私", "は", "学生"⟩], []⟩
      = addKeys ⟨[.text "私は学生です"], [.particle ⟨"私", "は", "学生"⟩], []⟩ := by
  have h := particleKey_injective_no_underscore "私は学生です" ⟨"私", "は", "学生"⟩
    ⟨"私", "は", "学生"⟩ (by decide) (by decide) (by decide) (by decide) rfl
  exact ⟨h.1, h.2 _⟩

/-! ## C8: particle grading -/

/-- C8 counterexample: particle grading succeeds on the response `は `
(the cloze with a trailing space) even though that submitted response is
not an exact string match of the cloze `は`: the code strips whitespace and
folds katakana before comparing. -/
theorem gradeParticle_not_exact_match :
    gradeParticle "は" "は " = true ∧ ("は " : String) ≠ "は" := by
  constructor
  · rfl
  · decide

/-- C8 (amended): particle grading is the deterministic local computation
that succeeds exactly when the whitespace-stripped katakana-folded
submitted response equals the particle's cloze text (an exact match of the
normalized response, not of the raw response). -/
theorem gradeParticle_iff_normalized (cloze input : String) :
    gradeParticle cloze input = true ↔ stripWhitespace (kata2hira input) = cloze := by
  unfold gradeParticle
  rw [beq_iff_eq]
  exact eq_comm

/-! ## C9: the tombstone round trip -/

/-- C9: For every prior stored state and any unlearn/re-learn pair of
timestamps, unlearning a key (tombstone) and then re-learning it yields
exactly the fresh default model stamped at the re-learn time — the triple
`[3, 3, 0.5]` (shape parameter 3, reference half-life 0.5 hours) with
`lastSeen` the re-learn time — independent of the history before the
unlearn. -/
theorem unlearn_relearn_roundtrip (history : Option MemoryDoc) (d₁ d₂ : String) :
    learnUnlearnStep true d₂ (learnUnlearnStep false d₁ history)
      = some (initializeModel d₂) ∧
    initializeModel d₂ = ⟨some ⟨3, 3, 0.5⟩, some d₂, some "1"⟩ := by
  constructor
  · rfl
  · rfl

/-! ## C10: one event write per related key -/

lemma natDigitsRev_eq_digits :
    ∀ (fuel n : ℕ), n < fuel →
      natDigitsRev fuel n
        = if n = 0 then ['0'] else (Nat.digits 10 n).map Nat.digitChar := by
  intro fuel
  induction fuel with
  | zero =>
    intro n h
    omega
  | succ fuel ih =>
    intro n h
    by_cases h0 : n = 0
    · subst h0
      rfl
    · rw [if_neg h0]
      by_cases h10 : n < 10
      · simp only [natDigitsRev, if_pos h10]
        rw [Nat.digits_def' (by norm_num : (1 : ℕ) < 10) (Nat.pos_of_ne_zero h0),
          Nat.div_eq_of_lt h10, Nat.digits_zero, Nat.mod_eq_of_lt h10]
        rfl
      · simp only [natDigitsRev, if_neg h10]
        rw [Nat.digits_def' (by norm_num : (1 : ℕ) < 10) (Nat.pos_of_ne_zero h0)]
        rw [List.map_cons]
        congr 1
        have hdiv : n / 10 < n := Nat.div_lt_self (Nat.pos_of_ne_zero h0) (by norm_num)
        have hpos : 0 < n / 10 := Nat.div_pos (le_of_not_lt h10) (by norm_num)
        rw [ih (n / 10) (by omega)]
        rw [if_neg (by omega)]

lemma digitChar_inj {a b : ℕ} (ha : a < 10) (hb : b < 10)
    (h : Nat.digitChar a = Nat.digitChar b) : a = b := by
  have H : ∀ a, a < 10 → ∀ b, b < 10 → Nat.digitChar a = Nat.digitChar b → a = b := by
    decide
  exact H a ha b hb h

lemma map_digitChar_inj :
    ∀ {l₁ l₂ : List ℕ}, (∀ d ∈ l₁, d < 10) → (∀ d ∈ l₂, d < 10) →
      l₁.map Nat.digitChar = l₂.map Nat.digitChar → l₁ = l₂ := by
  intro l₁
  induction l₁ with
  | nil =>
    intro l₂ _ _ h
    cases l₂ with
    | nil => rfl
    | cons b u => simp at h
  | cons a t ih =>
    intro l₂ h1 h2 h
    cases l₂ with
    | nil => simp at h
    | cons b u =>
      simp only [List.map_cons, List.cons.injEq] at h
      have ha := h1 a (List.mem_cons_self _ _)
      have hb := h2 b (List.mem_cons_self _ _)
      rw [digitChar_inj ha hb h.1,
        ih (fun d hd => h1 d (List.mem_cons_of_mem _ hd))
          (fun d hd => h2 d (List.mem_cons_of_mem _ hd)) h.2]

lemma natStr_inj {m n : ℕ} (h : natStr m = natStr n) : m = n := by
  have hdata := congrArg String.data h
  simp only [natStr] at hdata
  have hif := List.reverse_injective hdata
  rw [natDigitsRev_eq_digits (m + 1) m (by omega),
    natDigitsRev_eq_digits (n + 1) n (by omega)] at hif
  have hsingle : ∀ k : ℕ, k ≠ 0 → ['0'] ≠ (Nat.digits 10 k).map Nat.digitChar := by
    intro k hk habs
    cases hdig : Nat.digits 10 k with
    | nil =>
      rw [hdig] at habs
      simp at habs
    | cons d t =>
      cases t with
      | nil =>
        rw [hdig] at habs
        simp only [List.map_cons, List.map_nil, List.cons.injEq, and_true] at habs
        have hd10 : d < 10 := Nat.digits_lt_base (by norm_num)
          (by rw [hdig]; exact List.mem_cons_self _ _)
        have hd0 : d = 0 := digitChar_inj hd10 (by norm_num) habs.symm
        have hofd := Nat.ofDigits_digits 10 k
        rw [hdig, hd0] at hofd
        simp [Nat.ofDigits] at hofd
        exact hk hofd.symm
      | cons d' t' =>
        rw [hdig] at habs
        simp at habs
  by_cases hm0 : m = 0 <;> by_cases hn0 : n = 0
  · omega
  · rw [if_pos hm0, if_neg hn0] at hif
    exact absurd hif (hsingle n hn0)
  · rw [if_neg hm0, if_pos hn0] at hif
    exact absurd hif.symm (hsingle m hm0)
  · rw [if_neg hm0, if_neg hn0] at hif
    have hdig := map_digitChar_inj
      (fun d hd => Nat.digits_lt_base (by norm_num) hd)
      (fun d hd => Nat.digits_lt_base (by norm_num) hd) hif
    exact Nat.digits_inj_iff.mp hdig

lemma eventKeyOf_inj (stringyDate rand : String) {i j : ℕ}
    (h : eventKeyOf stringyDate rand i = eventKeyOf stringyDate rand j) : i = j := by
  apply natStr_inj
  have hdata := congrArg String.data h
  simp only [eventKeyOf, String.data_append, List.append_assoc] at hdata
  exact String.ext (List.append_cancel_left (List.append_cancel_left
    (List.append_cancel_left (List.append_cancel_left
      (List.append_cancel_left hdata)))))

lemma eventWritesAux_length (stringyDate rand : String) (ev : String → Option QuizEvent) :
    ∀ (i : ℕ) (ks : List String), (eventWritesAux stringyDate rand ev i ks).length = ks.length := by
  intro i ks
  induction ks generalizing i with
  | nil => rfl
  | cons k ks ih => simp [eventWritesAux, ih]

lemma eventWritesAux_get? (stringyDate rand : String) (ev : String → Option QuizEvent) :
    ∀ (i n : ℕ) (ks : List String),
      (eventWritesAux stringyDate rand ev i ks).get? n
        = (ks.get? n).map fun k => (eventKeyOf stringyDate rand (i + n), ev k) := by
  intro i n ks
  induction ks generalizing i n with
  | nil => simp [eventWritesAux]
  | cons k ks ih =>
    cases n with
    | zero => simp [eventWritesAux]
    | succ n =>
      simp only [eventWritesAux, List.get?_cons_succ, ih (i + 1) n]
      have hidx : i + 1 + n = i + (n + 1) := by omega
      rw [hidx]

/-- C10: For every `reviewSentence` call over `n` related keys, the event
phase performs exactly `n` writes, the `i`-th targeting the key
`quiz/<timestamp>-<random>-<i>`; those keys are pairwise distinct; and the
write for a related key whose stored document lacks a truthy ebisu model or
`lastSeen` carries no `QuizEvent` payload at all. -/
theorem reviewSentence_event_writes
    (updateRecall : EbisuModel → Bool → ℚ → EbisuModel) (parseDate : String → ℚ)
    (quizKey : String) (result : Bool) (response : Option String) (nowMs : ℚ)
    (stringyDate rand : String) (docOf : String → MemoryDoc) (relatedKeys : List String) :
    (reviewEventWrites updateRecall parseDate quizKey result response nowMs stringyDate rand
      docOf relatedKeys).length = relatedKeys.length ∧
    (∀ n, (reviewEventWrites updateRecall parseDate quizKey result response nowMs stringyDate
        rand docOf relatedKeys).get? n
      = (relatedKeys.get? n).map fun k =>
          (eventKeyOf stringyDate rand n,
            (reviewMerge updateRecall parseDate quizKey result response nowMs stringyDate k
              (docOf k)).2)) ∧
    (∀ i j : ℕ, i ≠ j → eventKeyOf stringyDate rand i ≠ eventKeyOf stringyDate rand j) ∧
    (∀ k, (docOf k).ebisu = none ∨ (docOf k).lastSeen = none ∨ (docOf k).lastSeen = some "" →
      (reviewMerge updateRecall parseDate quizKey result response nowMs stringyDate k
        (docOf k)).2 = none) := by
  refine ⟨eventWritesAux_length _ _ _ 0 relatedKeys, ?_, ?_, ?_⟩
  · intro n
    have h := eventWritesAux_get? stringyDate rand
      (fun k => (reviewMerge updateRecall parseDate quizKey result response nowMs stringyDate
        k (docOf k)).2) 0 n relatedKeys
    simpa [reviewEventWrites] using h
  · intro i j hne habs
    exact hne (eventKeyOf_inj stringyDate rand habs)
  · intro k hk
    rcases hk with hk | hk | hk
    · simp [reviewMerge, hk]
    · rcases h2 : (docOf k).ebisu with _ | e
      · simp [reviewMerge, h2]
      · simp [reviewMerge, h2, hk]
    · rcases h2 : (docOf k).ebisu with _ | e
      · simp [reviewMerge, h2]
      · have hemp : ("" : String).isEmpty = true := rfl
        simp [reviewMerge, h2, hk, hemp]

/-- Witness for C10 at a concrete two-key review with empty stored
documents: two writes, distinct event keys for indices 0 and 1, and an
empty event payload for a key with no present model. -/
theorem reviewSentence_event_writes_witness :
    (reviewEventWrites (fun _ _ _ => ⟨1, 1, 1⟩) (fun _ => 0) "model/A/reading" true none 0
      "D" "r" (fun _ => emptyDoc) ["model/A/meaning", "model/A/reading"]).length = 2 ∧
    eventKeyOf "D" "r" 0 ≠ eventKeyOf "D" "r" 1 ∧
    (reviewMerge (fun _ _ _ => ⟨1, 1, 1⟩) (fun _ => 0) "model/A/reading" true none 0 "D"
      "model/A/meaning" emptyDoc).2 = none := by
  have h := reviewSentence_event_writes (fun _ _ _ => ⟨1, 1, 1⟩) (fun _ => 0)
    "model/A/reading" true none 0 "D" "r" (fun _ => emptyDoc)
    ["model/A/meaning", "model/A/reading"]
  exact ⟨h.1, h.2.2.1 0 1 (by decide), h.2.2.2 "model/A/meaning" (Or.inl rfl)⟩

end Kaisei
